import Mathlib

/-!
Shallow embedding of the ocpdet neural-network changepoint detector
(`ocpdet/NeuralNetwork.py`) together with proofs about the claims of its
specification.  Machine floats are modelled by `ℝ`.  The Keras classifier
is modelled by an abstract state type `C` with a scoring function and a
gradient-update function, following the pluggable classifier contract the
specification prescribes; the embedding itself only depends on that
interface, exactly as `compute_dissimilarity` only calls `self.f` and the
optimiser.
-/

namespace Ocpdet

/-- Windowing, first stage (`window_data`, NeuralNetwork.py lines 128-132):
`X[i] = data[i : k+i]` for `i` ranging over `range(T - k + 1)`. -/
def windowsX {α : Type} (k : ℕ) (data : List α) : List (List α) :=
  (List.range (data.length + 1 - k)).map (fun i => (data.drop i).take k)

/-- Windowing, second stage (lines 133-136): `Xi[i] = X[i : n+i]` for `i`
ranging over `range(T - k - n + 2)`. -/
def windowsXi {α : Type} (k n : ℕ) (data : List α) : List (List (List α)) :=
  (List.range (data.length + 2 - (k + n))).map (fun i => ((windowsX k data).drop i).take n)

/-- Number of iterations of the `compute_dissimilarity` loop (line 141),
that is the length of the produced divergence and dissimilarity
sequences: `len(Xi) - lag - 1`, where empty python ranges give 0, which
truncated `ℕ` subtraction reproduces. -/
def dissLen (T k n l : ℕ) : ℕ :=
  (T + 2 - (k + n)) - (l + 1)

/-- Classifier state at the start of iteration `i` of
`compute_dissimilarity`: the classifier is updated exactly once per
iteration (lines 151-154), after the two scores of iteration `i` have
been taken. -/
def classAt {C B : Type} (update : C → B → B → C) (Xi : ℕ → B) (l : ℕ) (c0 : C) : ℕ → C
  | 0 => c0
  | i + 1 => update (classAt update Xi l c0 i) (Xi i) (Xi (i + l))

/-- Divergence value of iteration `i` (line 144):
`log((1 - f(X_lagged)) / f(X_lagged)) + log(f(X_recent) / (1 - f(X_recent)))`
with `X_lagged = Xi[i]` and `X_recent = Xi[i+lag]`, both scored by the
classifier state of iteration `i`, i.e. before that iteration's gradient
update. -/
noncomputable def divergenceSeq {C B : Type} (score : C → B → ℝ) (update : C → B → B → C)
    (Xi : ℕ → B) (l : ℕ) (c0 : C) (i : ℕ) : ℝ :=
  Real.log ((1 - score (classAt update Xi l c0 i) (Xi i)) / score (classAt update Xi l c0 i) (Xi i)) +
    Real.log (score (classAt update Xi l c0 i) (Xi (i + l)) /
      (1 - score (classAt update Xi l c0 i) (Xi (i + l))))

/-- Dissimilarity recurrence (lines 145-149): zero while `i ≤ lag + 1`,
afterwards
`dissimilarity[i] = dissimilarity[i-1] + (divergence[i] - divergence[i-1-lag]) / lag`. -/
noncomputable def dissRec (l : ℕ) (div : ℕ → ℝ) : ℕ → ℝ
  | 0 => 0
  | i + 1 =>
    if i + 1 ≤ l + 1 then 0
    else dissRec l div i + (div (i + 1) - div (i - l)) / (l : ℝ)

/-- Comparator for C2, written from the specification's words: the
arithmetic mean of the trailing `lag` divergence values at index `i`,
that is of `divergence[i-lag+1], …, divergence[i]`. -/
noncomputable def trailingMean (l : ℕ) (div : ℕ → ℝ) (i : ℕ) : ℝ :=
  (Finset.sum (Finset.range l) (fun j => div (i - j))) / (l : ℝ)

/-- Running-mean update (lines 167, 175, 197, 205):
`mu_hat_new = 1/n * ((n-1) * mu_hat + x)`. -/
noncomputable def muUpdate (n : ℕ) (mu x : ℝ) : ℝ :=
  (1 / (n : ℝ)) * (((n : ℝ) - 1) * mu + x)

/-- Running-deviation update (lines 168-169, 176-177, 198-199, 206-207):
`sigma_hat = sqrt(1/(n-1) * ((x - mu_hat_new) * (x - mu_hat) + (n-2) * sigma_hat))`.
The previous `sigma_hat` — a standard deviation — enters the linear
position where Welford's recurrence would take the previous variance. -/
noncomputable def sigmaUpdate (n : ℕ) (mu sigma x : ℝ) : ℝ :=
  Real.sqrt ((1 / ((n : ℝ) - 1)) * ((x - muUpdate n mu x) * (x - mu) + ((n : ℝ) - 2) * sigma))

/-- Comparator for C7, written from the specification's words: Welford's
one-pass variance update
`((n-2) * var + (x - mean_new) * (x - mean_old)) / (n-1)`. -/
noncomputable def welfordVar (n : ℕ) (mu var x : ℝ) : ℝ :=
  (((n : ℝ) - 2) * var + (x - muUpdate n mu x) * (x - mu)) / ((n : ℝ) - 1)

/-- EWMA statistic (lines 166, 174, 196, 204): `Z[0] = 0` (line 114) and
`Z[j] = (1-r) * Z[j-1] + r * dissimilarity[j]` for `j ≥ 1`. -/
noncomputable def Zseq (r : ℝ) (diss : ℕ → ℝ) : ℕ → ℝ
  | 0 => 0
  | j + 1 => (1 - r) * Zseq r diss j + r * diss (j + 1)

/-- Band factor of `sigma_Z[j]` (lines 172, 180, 202, 210):
`sqrt((r/(2-r)) * (1 - (1-r)^(2j)))`; the stored `sigma_Z[j]` equals the
freshly updated `sigma_hat` times this factor. -/
noncomputable def sigmaZfac (r : ℝ) (j : ℕ) : ℝ :=
  Real.sqrt ((r / (2 - r)) * (1 - (1 - r) ^ (2 * j)))

/-- Running-estimate state shared by all four detector loops: count `n`,
mean `mu_hat` and deviation `sigma_hat`; initialised to `(2, 0., 1.)`
(lines 161-163 and 190-192). -/
structure StatState where
  n : ℕ
  mu : ℝ
  sigma : ℝ

/-- One burn-in iteration of either detector restricted to the running
estimate (lines 165-172 and 195-202): statistics are updated, no decision
rule is evaluated. -/
noncomputable def statStep (diss : ℕ → ℝ) (j : ℕ) (s : StatState) : StatState :=
  ⟨s.n + 1, muUpdate s.n s.mu (diss j), sigmaUpdate s.n s.mu s.sigma (diss j)⟩

/-- State of `detect_bump` (lines 187-219).  `lastPlus` models the test
`last == "+"`; `last` itself ranges over None, "+", "-" but is only ever
compared against "+". -/
structure BumpState where
  n : ℕ
  mu : ℝ
  sigma : ℝ
  lastPlus : Bool
  lastDet : Option ℕ
  cps : List ℕ

/-- Upper-band trigger (lines 181 and 211):
`Z[j] > mu_hat + sigma_Z[j] * L`, where `mu_hat` and `sigma_hat` have
already been updated for step `j`. -/
def upCond (r L : ℝ) (diss : ℕ → ℝ) (j n : ℕ) (mu sigma : ℝ) : Prop :=
  Zseq r diss j > muUpdate n mu (diss j) + sigmaUpdate n mu sigma (diss j) * sigmaZfac r j * L

/-- Lower-band trigger (line 215): `Z[j] < mu_hat - sigma_Z[j] * L`. -/
def downCond (r L : ℝ) (diss : ℕ → ℝ) (j n : ℕ) (mu sigma : ℝ) : Prop :=
  Zseq r diss j < muUpdate n mu (diss j) - sigmaUpdate n mu sigma (diss j) * sigmaZfac r j * L

open Classical in
/-- First conditional of the `detect_bump` loop body (lines 211-214),
entered after the running-estimate, `Z` and `sigma_Z` updates of lines
204-210; note `n` was already incremented (line 209) before the branch
may reset it to 2. -/
noncomputable def bumpArm (r L : ℝ) (diss : ℕ → ℝ) (j : ℕ) (s : BumpState) : BumpState :=
  if upCond r L diss j s.n s.mu s.sigma ∧ s.lastDet = none then
    ⟨2, muUpdate s.n s.mu (diss j), sigmaUpdate s.n s.mu s.sigma (diss j), true, some j, s.cps⟩
  else
    ⟨s.n + 1, muUpdate s.n s.mu (diss j), sigmaUpdate s.n s.mu s.sigma (diss j),
      s.lastPlus, s.lastDet, s.cps⟩

open Classical in
/-- Second conditional of the `detect_bump` loop body (lines 215-219).
Its `mu_hat` and updated `sigma_hat` are the values `bumpArm` stored in
`mu` and `sigma` (both of its branches store the updated statistics), so
the tested inequality is line 215 verbatim.  In the source the appended
value is `last_det`; the guard `last == "+"` entails `last_det ≠ None`
(an invariant proved below), so `getD 0` never takes its default. -/
noncomputable def bumpFire (r L : ℝ) (diss : ℕ → ℝ) (j : ℕ) (s : BumpState) : BumpState :=
  if Zseq r diss j < s.mu - s.sigma * sigmaZfac r j * L ∧ s.lastPlus then
    ⟨2, s.mu, s.sigma, false, none, s.cps ++ [s.lastDet.getD 0]⟩
  else s

/-- One iteration of the `detect_bump` detection loop (lines 203-219). -/
noncomputable def bumpStep (r L : ℝ) (diss : ℕ → ℝ) (j : ℕ) (s : BumpState) : BumpState :=
  bumpFire r L diss j (bumpArm r L diss j s)

/-- One burn-in iteration of `detect_bump` (lines 195-202). -/
noncomputable def burnStepB (diss : ℕ → ℝ) (j : ℕ) (s : BumpState) : BumpState :=
  ⟨s.n + 1, muUpdate s.n s.mu (diss j), sigmaUpdate s.n s.mu s.sigma (diss j),
    s.lastPlus, s.lastDet, s.cps⟩

/-- Generic indexed loop: `runSteps step a c s` applies `step` at indices
`a, a+1, …, a+c-1`, like `for j in range(a, a+c)`. -/
def runSteps {S : Type} (step : ℕ → S → S) : ℕ → ℕ → S → S
  | _, 0, s => s
  | a, c + 1, s => runSteps step (a + 1) c (step a s)

/-- Initial state of `detect_bump` (lines 111-116 and 190-194). -/
noncomputable def bumpInit : BumpState := ⟨2, 0, 1, false, none, []⟩

/-- State of the `detect_bump` run just before loop index `j` (meaningful
for `burnin ≤ j`): the burn-in loop runs over `range(1, burnin)`, the
detection loop then starts at `burnin`. -/
noncomputable def bumpStateAt (r L : ℝ) (burnin : ℕ) (diss : ℕ → ℝ) (j : ℕ) : BumpState :=
  runSteps (bumpStep r L diss) burnin (j - burnin)
    (runSteps (burnStepB diss) 1 (burnin - 1) bumpInit)

/-- Complete `detect_bump` run over a dissimilarity sequence of length
`D` (detection loop `range(burnin, D)`, line 203). -/
noncomputable def detectBump (r L : ℝ) (burnin D : ℕ) (diss : ℕ → ℝ) : BumpState :=
  bumpStateAt r L burnin diss D

/-- Upward band crossing of the actual `detect_bump` trace at index `j`:
the inequality of line 211 evaluated on the run's own statistics. -/
def upCrossB (r L : ℝ) (burnin : ℕ) (diss : ℕ → ℝ) (j : ℕ) : Prop :=
  upCond r L diss j (bumpStateAt r L burnin diss j).n (bumpStateAt r L burnin diss j).mu
    (bumpStateAt r L burnin diss j).sigma

/-- Downward band crossing of the actual `detect_bump` trace at index
`j`: the inequality of line 215 evaluated on the run's own statistics. -/
def downCrossB (r L : ℝ) (burnin : ℕ) (diss : ℕ → ℝ) (j : ℕ) : Prop :=
  downCond r L diss j (bumpStateAt r L burnin diss j).n (bumpStateAt r L burnin diss j).mu
    (bumpStateAt r L burnin diss j).sigma

/-- State of `detect_increase` (lines 158-185). -/
structure IncState where
  n : ℕ
  mu : ℝ
  sigma : ℝ
  lastCp : ℕ
  cps : List ℕ

open Classical in
/-- One iteration of the `detect_increase` detection loop (lines
173-185).  `last_cp` starts at 0 (line 164) and only ever moves to the
current index, so `last_cp ≤ j` always holds and `ℕ` subtraction agrees
with the source's integer `j - last_cp`.  As in the source, `n` is reset
to 2 whenever the outer trigger fires, whether or not the timeout test
lets the changepoint be recorded. -/
noncomputable def incStep (r L : ℝ) (timeout : ℕ) (diss : ℕ → ℝ) (j : ℕ) (s : IncState) : IncState :=
  if upCond r L diss j s.n s.mu s.sigma then
    if timeout < j - s.lastCp then
      ⟨2, muUpdate s.n s.mu (diss j), sigmaUpdate s.n s.mu s.sigma (diss j), j, s.cps ++ [j]⟩
    else
      ⟨2, muUpdate s.n s.mu (diss j), sigmaUpdate s.n s.mu s.sigma (diss j), s.lastCp, s.cps⟩
  else
    ⟨s.n + 1, muUpdate s.n s.mu (diss j), sigmaUpdate s.n s.mu s.sigma (diss j), s.lastCp, s.cps⟩

/-- One burn-in iteration of `detect_increase` (lines 165-172). -/
noncomputable def burnStepI (diss : ℕ → ℝ) (j : ℕ) (s : IncState) : IncState :=
  ⟨s.n + 1, muUpdate s.n s.mu (diss j), sigmaUpdate s.n s.mu s.sigma (diss j), s.lastCp, s.cps⟩

/-- Initial state of `detect_increase` (lines 111-116 and 161-164). -/
noncomputable def incInit : IncState := ⟨2, 0, 1, 0, []⟩

/-- State of the `detect_increase` run just before loop index `j`
(meaningful for `burnin ≤ j`). -/
noncomputable def incStateAt (r L : ℝ) (burnin timeout : ℕ) (diss : ℕ → ℝ) (j : ℕ) : IncState :=
  runSteps (incStep r L timeout diss) burnin (j - burnin)
    (runSteps (burnStepI diss) 1 (burnin - 1) incInit)

/-- Complete `detect_increase` run over a dissimilarity sequence of
length `D` (detection loop `range(burnin, D)`, line 173). -/
noncomputable def detectInc (r L : ℝ) (burnin timeout D : ℕ) (diss : ℕ → ℝ) : IncState :=
  incStateAt r L burnin timeout diss D

/-- Upward band crossing of the actual `detect_increase` trace at index
`j`: the inequality of line 181 evaluated on the run's own statistics. -/
def upCrossI (r L : ℝ) (burnin timeout : ℕ) (diss : ℕ → ℝ) (j : ℕ) : Prop :=
  upCond r L diss j (incStateAt r L burnin timeout diss j).n
    (incStateAt r L burnin timeout diss j).mu (incStateAt r L burnin timeout diss j).sigma

/-- Method-string validation of `__init__` (lines 105-109): an
unrecognized value is replaced by the default "bump"; the constructor
only prints a message and never raises. -/
def initMethod (method : String) : String :=
  if method = "bump" ∨ method = "increase" then method else "bump"

/-- Internal changepoint list produced by `process` (lines 236-243): the
raw stream is windowed, the dissimilarity engine produces `dissLen`
values, the detector selected by `self.method` runs on them.  When the
method string matches neither branch, `changepoints` stays empty, exactly
as in the source's if/elif with no else. -/
noncomputable def internalCps {α C : Type} (method : String) (k n l : ℕ) (r L : ℝ)
    (burnin timeout : ℕ) (score : C → List (List α) → ℝ)
    (update : C → List (List α) → List (List α) → C) (c0 : C) (data : List α) : List ℕ :=
  if method = "bump" then
    (detectBump r L burnin (dissLen data.length k n l)
      (dissRec l (divergenceSeq score update (fun i => (windowsXi k n data).getD i []) l c0))).cps
  else if method = "increase" then
    (detectInc r L burnin timeout (dissLen data.length k n l)
      (dissRec l (divergenceSeq score update (fun i => (windowsXi k n data).getD i []) l c0))).cps
  else []

/-- Reported changepoints of `process` (line 245): every internal index
shifted by `len(data) - len(dissimilarity)`. -/
noncomputable def processCps {α C : Type} (method : String) (k n l : ℕ) (r L : ℝ)
    (burnin timeout : ℕ) (score : C → List (List α) → ℝ)
    (update : C → List (List α) → List (List α) → C) (c0 : C) (data : List α) : List ℕ :=
  (internalCps method k n l r L burnin timeout score update c0 data).map
    (fun c => c + (data.length - dissLen data.length k n l))

/-- Total model of a `process` call including its only failure mode on
this path: the burn-in loops (lines 165 and 195) read `dissimilarity[j]`
for `j = 1, …, burnin-1`, so a run whose dissimilarity sequence is
shorter than `burnin` (with `burnin ≥ 2`) aborts with an uncaught
`IndexError` in the middle of detection, modelled as `none`.  No
configuration validation of any kind exists anywhere on this path. -/
noncomputable def processE {α C : Type} (method : String) (k n l : ℕ) (r L : ℝ)
    (burnin timeout : ℕ) (score : C → List (List α) → ℝ)
    (update : C → List (List α) → List (List α) → C) (c0 : C) (data : List α) : Option (List ℕ) :=
  if 2 ≤ burnin ∧ dissLen data.length k n l < burnin then none
  else some (processCps method k n l r L burnin timeout score update c0 data)

/-- Loop invariant of `detect_bump` used for C8: recorded changepoints
are strictly increasing, below the current index, below any pending armed
index, and an armed flag always carries a pending index. -/
def BumpInv (j : ℕ) (s : BumpState) : Prop :=
  s.cps.Pairwise (fun a b => a < b) ∧ (∀ c ∈ s.cps, c < j) ∧
    (∀ a, s.lastDet = some a → (∀ c ∈ s.cps, c < a) ∧ a < j) ∧
    (s.lastPlus = true → s.lastDet ≠ none)

/-- Loop invariant of `detect_increase` used for C8. -/
def IncInv (j : ℕ) (s : IncState) : Prop :=
  s.cps.Pairwise (fun a b => a < b) ∧ (∀ c ∈ s.cps, c ≤ s.lastCp) ∧ s.lastCp < j

/-- Concrete dissimilarity sequence used in the bump-mode scenarios:
value 1 at index 1, value -1 at index 2, zero elsewhere. -/
noncomputable def dissW3 : ℕ → ℝ := fun j => if j = 1 then 1 else if j = 2 then -1 else 0

/-- Concrete dissimilarity sequence used in the increase-mode scenarios:
value 1 at index 1, value 2 at index 2, zero elsewhere. -/
noncomputable def dissW4 : ℕ → ℝ := fun j => if j = 1 then 1 else if j = 2 then 2 else 0

/-- Concrete divergence sequence used for C2: value 1 at index 1, zero
elsewhere. -/
noncomputable def divW2 : ℕ → ℝ := fun i => if i = 1 then 1 else 0

/-- Concrete dissimilarity prefix used for C7: value 2 at index 1, zero
elsewhere. -/
noncomputable def dissW7 : ℕ → ℝ := fun j => if j = 1 then 2 else 0

theorem dissRec_succ (l : ℕ) (div : ℕ → ℝ) (i : ℕ) :
    dissRec l div (i + 1) =
      if i + 1 ≤ l + 1 then 0 else dissRec l div i + (div (i + 1) - div (i - l)) / (l : ℝ) := rfl

theorem Zseq_succ (r : ℝ) (diss : ℕ → ℝ) (j : ℕ) :
    Zseq r diss (j + 1) = (1 - r) * Zseq r diss j + r * diss (j + 1) := rfl

theorem runSteps_zero {S : Type} (step : ℕ → S → S) (a : ℕ) (s : S) :
    runSteps step a 0 s = s := rfl

theorem runSteps_shift {S : Type} (step : ℕ → S → S) (a c : ℕ) (s : S) :
    runSteps step a (c + 1) s = runSteps step (a + 1) c (step a s) := rfl

/-- Sanity check relating the windower to `dissLen`: the engine loop
count is the number of mini-batches minus `lag + 1`. -/
theorem windowsXi_length {α : Type} (k n : ℕ) (data : List α) :
    (windowsXi k n data).length = data.length + 2 - (k + n) := by
  simp [windowsXi]

theorem runSteps_succ {S : Type} (step : ℕ → S → S) (c : ℕ) :
    ∀ (a : ℕ) (s : S), runSteps step a (c + 1) s = step (a + c) (runSteps step a c s) := by
  induction c with
  | zero => intro a s; rfl
  | succ c ih =>
    intro a s
    have h1 : runSteps step a (c + 1 + 1) s = runSteps step (a + 1) (c + 1) (step a s) := rfl
    have h2 : runSteps step a (c + 1) s = runSteps step (a + 1) c (step a s) := rfl
    rw [h1, ih (a + 1) (step a s), h2]
    congr 1
    omega

theorem runSteps_inv {S : Type} (step : ℕ → S → S) (I : ℕ → S → Prop)
    (h : ∀ j s, I j s → I (j + 1) (step j s)) :
    ∀ (c a : ℕ) (s : S), I a s → I (a + c) (runSteps step a c s) := by
  intro c
  induction c with
  | zero => intro a s hs; simpa using hs
  | succ c ih =>
    intro a s hs
    rw [runSteps_succ]
    have e : a + (c + 1) = a + c + 1 := by omega
    rw [e]
    exact h (a + c) _ (ih a s hs)

theorem burnB_components (diss : ℕ → ℝ) :
    ∀ (c a : ℕ) (s : BumpState),
      (runSteps (burnStepB diss) a c s).lastPlus = s.lastPlus ∧
        (runSteps (burnStepB diss) a c s).lastDet = s.lastDet ∧
        (runSteps (burnStepB diss) a c s).cps = s.cps := by
  intro c
  induction c with
  | zero => intro a s; exact ⟨rfl, rfl, rfl⟩
  | succ c ih =>
    intro a s
    rw [runSteps_shift]
    exact ih (a + 1) (burnStepB diss a s)

theorem burnI_components (diss : ℕ → ℝ) :
    ∀ (c a : ℕ) (s : IncState),
      (runSteps (burnStepI diss) a c s).lastCp = s.lastCp ∧
        (runSteps (burnStepI diss) a c s).cps = s.cps := by
  intro c
  induction c with
  | zero => intro a s; exact ⟨rfl, rfl⟩
  | succ c ih =>
    intro a s
    rw [runSteps_shift]
    exact ih (a + 1) (burnStepI diss a s)

theorem detectBump_nilOfZero (r L : ℝ) (burnin : ℕ) (diss : ℕ → ℝ) (hb : burnin ≤ 1) :
    (detectBump r L burnin 0 diss).cps = [] := by
  unfold detectBump bumpStateAt
  rw [Nat.zero_sub, show burnin - 1 = 0 by omega]
  rfl

theorem detectInc_nilOfZero (r L : ℝ) (burnin timeout : ℕ) (diss : ℕ → ℝ) (hb : burnin ≤ 1) :
    (detectInc r L burnin timeout 0 diss).cps = [] := by
  unfold detectInc incStateAt
  rw [Nat.zero_sub, show burnin - 1 = 0 by omega]
  rfl

/-- Claim C9: for every run of the dissimilarity recurrence, every lag
and all indices `i ≤ lag + 1`, `dissimilarity[i] = 0` exactly. -/
theorem c9_dissimilarity_burnin (l : ℕ) (div : ℕ → ℝ) (i : ℕ) (h : i ≤ l + 1) :
    dissRec l div i = 0 := by
  cases i with
  | zero => rfl
  | succ i => rw [dissRec_succ, if_pos h]

theorem c9_dissimilarity_burnin_witness :
    3 ≤ 2 + 1 ∧ dissRec 2 divW2 3 = 0 :=
  ⟨by norm_num, c9_dissimilarity_burnin 2 divW2 3 (by norm_num)⟩

/-- Claim C2 (code bug): at lag 2 on the divergence sequence
(0,1,0,0,0), the incremental update of line 148 gives
`dissimilarity[4] = -1/2` while the arithmetic mean of the trailing two
divergence values at index 4 is 0: the incremental update subtracts
`divergence[i-1-lag]` instead of `divergence[i-lag]` and starts from a
zero base, so it does not compute the trailing rolling mean. -/
theorem c2_rolling_mean_bug :
    dissRec 2 divW2 4 = -(1 / 2) ∧ trailingMean 2 divW2 4 = 0 ∧
      dissRec 2 divW2 4 ≠ trailingMean 2 divW2 4 := by
  have h3 : dissRec 2 divW2 3 = 0 := by
    show dissRec 2 divW2 (2 + 1) = 0
    rw [dissRec_succ, if_pos (by norm_num)]
  have h4 : dissRec 2 divW2 4 = -(1 / 2) := by
    show dissRec 2 divW2 (3 + 1) = -(1 / 2)
    rw [dissRec_succ, if_neg (by norm_num), h3]
    norm_num [divW2]
  have hm : trailingMean 2 divW2 4 = 0 := by
    unfold trailingMean
    rw [Finset.sum_range_succ, Finset.sum_range_succ, Finset.sum_range_zero]
    norm_num [divW2]
  exact ⟨h4, hm, by rw [h4, hm]; norm_num⟩

/-- Claim C5 (counterexample): constructing with the unrecognized method
string "ewma" does not fail: the constructor silently substitutes the
default mode "bump" and continues. -/
theorem c5_mode_counterexample :
    initMethod ("ewma") = ("bump") ∧ ("ewma" : String) ≠ ("bump") ∧
      ("ewma" : String) ≠ ("increase") :=
  ⟨by decide, by decide, by decide⟩

/-- Claim C5 (amended): for every method string other than the two
recognized values, constructing the detector prints a message and
silently substitutes the default mode "bump"; it never fails. -/
theorem c5_mode_amended (m : String) (h1 : m ≠ ("bump")) (h2 : m ≠ ("increase")) :
    initMethod m = ("bump") := by
  unfold initMethod
  have hc : ¬(m = ("bump") ∨ m = ("increase")) := by
    rintro (h | h)
    · exact h1 h
    · exact h2 h
  rw [if_neg hc]

theorem c5_mode_amended_witness :
    ("foo" : String) ≠ ("bump") ∧ ("foo" : String) ≠ ("increase") ∧
      initMethod ("foo") = ("bump") :=
  ⟨by decide, by decide, c5_mode_amended ("foo") (by decide) (by decide)⟩

/-- Claim C1 (counterexample): with a classifier scoring every batch 1/3,
the divergence computed by line 144 differs from the specification's
formula `log(p_lag/(1-p_lag)) + log(p_rec/(1-p_rec))` at index 0: the
code's first term is the logit of the lagged score with the ratio
inverted. -/
theorem c1_divergence_counterexample :
    divergenceSeq (fun (_ : Unit) (_ : Unit) => (1 / 3 : ℝ)) (fun c _ _ => c) (fun _ => ()) 1 () 0 ≠
      Real.log ((1 / 3) / (1 - 1 / 3)) + Real.log ((1 / 3) / (1 - 1 / 3)) := by
  have e1 : ((1 : ℝ) - 1 / 3) / (1 / 3) = 2 := by norm_num
  have e2 : ((1 : ℝ) / 3) / (1 - 1 / 3) = 2⁻¹ := by norm_num
  have hL : divergenceSeq (fun (_ : Unit) (_ : Unit) => (1 / 3 : ℝ)) (fun c _ _ => c)
      (fun _ => ()) 1 () 0 = Real.log 2 - Real.log 2 := by
    show Real.log (((1 : ℝ) - 1 / 3) / (1 / 3)) + Real.log (((1 : ℝ) / 3) / (1 - 1 / 3)) = _
    rw [e1, e2, Real.log_inv]
    ring
  rw [hL, e2, Real.log_inv]
  have hpos : (0 : ℝ) < Real.log 2 := Real.log_pos (by norm_num)
  intro hcon
  linarith

/-- Claim C1 (amended): the divergence of line 144 equals the logit of
the recent score minus the logit of the lagged score,
`log(p_rec/(1-p_rec)) - log(p_lag/(1-p_lag))`, both scores taken from the
classifier state of step `i`, before that step's gradient update; the
specification's formula has the sign of the lagged term wrong. -/
theorem c1_divergence_amended {C B : Type} (score : C → B → ℝ) (update : C → B → B → C)
    (Xi : ℕ → B) (l : ℕ) (c0 : C) (i : ℕ) :
    divergenceSeq score update Xi l c0 i =
      Real.log (score (classAt update Xi l c0 i) (Xi (i + l)) /
          (1 - score (classAt update Xi l c0 i) (Xi (i + l)))) -
        Real.log (score (classAt update Xi l c0 i) (Xi i) /
          (1 - score (classAt update Xi l c0 i) (Xi i))) ∧
      classAt update Xi l c0 (i + 1) = update (classAt update Xi l c0 i) (Xi i) (Xi (i + l)) := by
  constructor
  · unfold divergenceSeq
    rw [show (1 - score (classAt update Xi l c0 i) (Xi i)) / score (classAt update Xi l c0 i) (Xi i) =
          (score (classAt update Xi l c0 i) (Xi i) /
            (1 - score (classAt update Xi l c0 i) (Xi i)))⁻¹ from (inv_div _ _).symm,
        Real.log_inv]
    ring
  · rfl

/-- Claim C7 (code bug): starting from the detectors' initial running
estimate `(n, mu_hat, sigma_hat) = (2, 0, 1)` and feeding the
dissimilarity values 2 then 0, the squared deviation stored by the update
of lines 168-169 is `1/3 + sqrt 2 / 2`, while Welford's variance update
applied to the same state (previous variance `sigma_hat^2 = 2`) gives
`4/3`: the code feeds the previous standard deviation where Welford's
recurrence requires the previous variance. -/
theorem c7_welford_bug :
    (statStep dissW7 2 (statStep dissW7 1 ⟨2, 0, 1⟩)).sigma ^ 2 = 1 / 3 + Real.sqrt 2 / 2 ∧
      welfordVar (statStep dissW7 1 ⟨2, 0, 1⟩).n (statStep dissW7 1 ⟨2, 0, 1⟩).mu
        ((statStep dissW7 1 ⟨2, 0, 1⟩).sigma ^ 2) (dissW7 2) = 4 / 3 ∧
      (statStep dissW7 2 (statStep dissW7 1 ⟨2, 0, 1⟩)).sigma ^ 2 ≠
        welfordVar (statStep dissW7 1 ⟨2, 0, 1⟩).n (statStep dissW7 1 ⟨2, 0, 1⟩).mu
          ((statStep dissW7 1 ⟨2, 0, 1⟩).sigma ^ 2) (dissW7 2) := by
  have hd1 : dissW7 1 = 2 := by norm_num [dissW7]
  have hd2 : dissW7 2 = 0 := by norm_num [dissW7]
  have hmu1 : muUpdate 2 0 2 = 1 := by
    unfold muUpdate
    push_cast
    norm_num
  have hsig1 : sigmaUpdate 2 0 1 2 = Real.sqrt 2 := by
    unfold sigmaUpdate
    rw [hmu1]
    push_cast
    norm_num
  have hs1n : (statStep dissW7 1 ⟨2, 0, 1⟩).n = 3 := rfl
  have hs1mu : (statStep dissW7 1 ⟨2, 0, 1⟩).mu = 1 := by
    show muUpdate 2 0 (dissW7 1) = 1
    rw [hd1, hmu1]
  have hs1sig : (statStep dissW7 1 ⟨2, 0, 1⟩).sigma = Real.sqrt 2 := by
    show sigmaUpdate 2 0 1 (dissW7 1) = Real.sqrt 2
    rw [hd1, hsig1]
  have hmu2 : muUpdate 3 1 0 = 2 / 3 := by
    unfold muUpdate
    push_cast
    norm_num
  have hinner : sigmaUpdate 3 1 (Real.sqrt 2) 0 = Real.sqrt (1 / 3 + Real.sqrt 2 / 2) := by
    unfold sigmaUpdate
    rw [hmu2]
    push_cast
    congr 1
    ring
  have h2sig : (statStep dissW7 2 (statStep dissW7 1 ⟨2, 0, 1⟩)).sigma =
      Real.sqrt (1 / 3 + Real.sqrt 2 / 2) := by
    show sigmaUpdate (statStep dissW7 1 ⟨2, 0, 1⟩).n (statStep dissW7 1 ⟨2, 0, 1⟩).mu
        (statStep dissW7 1 ⟨2, 0, 1⟩).sigma (dissW7 2) = _
    rw [hs1n, hs1mu, hs1sig, hd2, hinner]
  have hsq : (statStep dissW7 2 (statStep dissW7 1 ⟨2, 0, 1⟩)).sigma ^ 2 =
      1 / 3 + Real.sqrt 2 / 2 := by
    rw [h2sig]
    exact Real.sq_sqrt (by positivity)
  have hs1sq : (statStep dissW7 1 ⟨2, 0, 1⟩).sigma ^ 2 = 2 := by
    rw [hs1sig]
    exact Real.sq_sqrt (by norm_num)
  have hw : welfordVar (statStep dissW7 1 ⟨2, 0, 1⟩).n (statStep dissW7 1 ⟨2, 0, 1⟩).mu
      ((statStep dissW7 1 ⟨2, 0, 1⟩).sigma ^ 2) (dissW7 2) = 4 / 3 := by
    rw [hs1n, hs1mu, hs1sq, hd2]
    unfold welfordVar
    rw [hmu2]
    push_cast
    norm_num
  have hne : (1 : ℝ) / 3 + Real.sqrt 2 / 2 ≠ 4 / 3 := by
    intro hcon
    have h2 : Real.sqrt 2 = 2 := by linarith
    have hsqr := Real.sq_sqrt (by norm_num : (0 : ℝ) ≤ 2)
    rw [h2] at hsqr
    norm_num at hsqr
  exact ⟨hsq, hw, by rw [hsq, hw]; exact hne⟩

/-- Claim C6 (counterexample): with k=10, n=5, a stream of length 1 (so
k+n-1 > T) and burnin 1, `process` raises no configuration error and
returns an empty changepoint result instead of failing before stream
processing. -/
theorem c6_no_config_error_counterexample :
    (1 : ℕ) + 2 ≤ 10 + 5 ∧
      processE ("bump") 10 5 100 1 1 1 0 (fun (_ : Unit) (_ : List (List ℕ)) => 1 / 2)
        (fun c _ _ => c) () [0] = some [] := by
  constructor
  · norm_num
  · rfl

/-- Claim C6 (amended): when k+n-1 > T no configuration error is raised
and nothing fails before stream processing: the dissimilarity sequence is
empty, a run with burnin ≤ 1 returns an empty changepoint set, and a run
with burnin ≥ 2 fails only inside the detection phase with an index
error. -/
theorem c6_insufficient_data_amended {α C : Type} (method : String) (k n l : ℕ) (r L : ℝ)
    (burnin timeout : ℕ) (score : C → List (List α) → ℝ)
    (update : C → List (List α) → List (List α) → C) (c0 : C) (data : List α)
    (h : data.length + 2 ≤ k + n) :
    dissLen data.length k n l = 0 ∧
      (burnin ≤ 1 →
        processE method k n l r L burnin timeout score update c0 data = some []) ∧
      (2 ≤ burnin →
        processE method k n l r L burnin timeout score update c0 data = none) := by
  have hD : dissLen data.length k n l = 0 := by
    unfold dissLen
    omega
  refine ⟨hD, ?_, ?_⟩
  · intro hb
    unfold processE
    rw [if_neg (fun hc => by omega)]
    congr 1
    unfold processCps internalCps
    rw [hD]
    split_ifs with hm1 hm2
    · rw [detectBump_nilOfZero r L burnin _ hb]
      rfl
    · rw [detectInc_nilOfZero r L burnin timeout _ hb]
      rfl
    · rfl
  · intro hb
    unfold processE
    have hlt : dissLen data.length k n l < burnin := by
      rw [hD]
      omega
    rw [if_pos ⟨hb, hlt⟩]

theorem c6_insufficient_data_amended_witness :
    ([0] : List ℕ).length + 2 ≤ 10 + 5 ∧
      (dissLen ([0] : List ℕ).length 10 5 100 = 0 ∧
        ((1 : ℕ) ≤ 1 →
          processE ("bump") 10 5 100 1 1 1 0 (fun (_ : Unit) (_ : List (List ℕ)) => 1 / 2)
            (fun c _ _ => c) () [0] = some []) ∧
        (2 ≤ (1 : ℕ) →
          processE ("bump") 10 5 100 1 1 1 0 (fun (_ : Unit) (_ : List (List ℕ)) => 1 / 2)
            (fun c _ _ => c) () [0] = none)) :=
  ⟨by norm_num,
    c6_insufficient_data_amended ("bump") 10 5 100 1 1 1 0
      (fun (_ : Unit) (_ : List (List ℕ)) => 1 / 2) (fun c _ _ => c) () [0] (by norm_num)⟩

theorem bumpStateAt_succ (r L : ℝ) (burnin : ℕ) (diss : ℕ → ℝ) (j : ℕ) (hj : burnin ≤ j) :
    bumpStateAt r L burnin diss (j + 1) =
      bumpStep r L diss j (bumpStateAt r L burnin diss j) := by
  unfold bumpStateAt
  rw [show j + 1 - burnin = (j - burnin) + 1 by omega, runSteps_succ,
    show burnin + (j - burnin) = j by omega]

theorem bumpStep_quiet (r L : ℝ) (diss : ℕ → ℝ) (j : ℕ) (s : BumpState)
    (h1 : ¬ upCond r L diss j s.n s.mu s.sigma)
    (h2 : ¬ downCond r L diss j s.n s.mu s.sigma) :
    bumpStep r L diss j s =
      ⟨s.n + 1, muUpdate s.n s.mu (diss j), sigmaUpdate s.n s.mu s.sigma (diss j),
        s.lastPlus, s.lastDet, s.cps⟩ := by
  show bumpFire r L diss j (bumpArm r L diss j s) = _
  have hA : bumpArm r L diss j s =
      ⟨s.n + 1, muUpdate s.n s.mu (diss j), sigmaUpdate s.n s.mu s.sigma (diss j),
        s.lastPlus, s.lastDet, s.cps⟩ := by
    unfold bumpArm
    rw [if_neg (fun hc => h1 hc.1)]
  rw [hA]
  unfold bumpFire
  rw [if_neg (fun hc => h2 hc.1)]

theorem bumpStep_arm (r L : ℝ) (diss : ℕ → ℝ) (j : ℕ) (s : BumpState)
    (h1 : upCond r L diss j s.n s.mu s.sigma) (hL : s.lastDet = none)
    (h2 : ¬ downCond r L diss j s.n s.mu s.sigma) :
    bumpStep r L diss j s =
      ⟨2, muUpdate s.n s.mu (diss j), sigmaUpdate s.n s.mu s.sigma (diss j),
        true, some j, s.cps⟩ := by
  show bumpFire r L diss j (bumpArm r L diss j s) = _
  have hA : bumpArm r L diss j s =
      ⟨2, muUpdate s.n s.mu (diss j), sigmaUpdate s.n s.mu s.sigma (diss j),
        true, some j, s.cps⟩ := by
    unfold bumpArm
    rw [if_pos ⟨h1, hL⟩]
  rw [hA]
  unfold bumpFire
  rw [if_neg (fun hc => h2 hc.1)]

theorem bumpStep_fire (r L : ℝ) (diss : ℕ → ℝ) (j : ℕ) (s : BumpState)
    (h1 : ¬ upCond r L diss j s.n s.mu s.sigma)
    (h2 : downCond r L diss j s.n s.mu s.sigma) (hP : s.lastPlus = true) :
    bumpStep r L diss j s =
      ⟨2, muUpdate s.n s.mu (diss j), sigmaUpdate s.n s.mu s.sigma (diss j),
        false, none, s.cps ++ [s.lastDet.getD 0]⟩ := by
  show bumpFire r L diss j (bumpArm r L diss j s) = _
  have hA : bumpArm r L diss j s =
      ⟨s.n + 1, muUpdate s.n s.mu (diss j), sigmaUpdate s.n s.mu s.sigma (diss j),
        s.lastPlus, s.lastDet, s.cps⟩ := by
    unfold bumpArm
    rw [if_neg (fun hc => h1 hc.1)]
  rw [hA]
  unfold bumpFire
  rw [if_pos ⟨h2, hP⟩]

theorem bump_quiet (r L : ℝ) (burnin : ℕ) (diss : ℕ → ℝ) (a : ℕ) (ha : burnin ≤ a) :
    ∀ b, a ≤ b →
      (∀ j, a ≤ j → j < b → ¬ upCrossB r L burnin diss j ∧ ¬ downCrossB r L burnin diss j) →
      (bumpStateAt r L burnin diss b).lastPlus = (bumpStateAt r L burnin diss a).lastPlus ∧
        (bumpStateAt r L burnin diss b).lastDet = (bumpStateAt r L burnin diss a).lastDet ∧
        (bumpStateAt r L burnin diss b).cps = (bumpStateAt r L burnin diss a).cps := by
  intro b hb
  induction b, hb using Nat.le_induction with
  | base => intro _; exact ⟨rfl, rfl, rfl⟩
  | succ b hab ih =>
    intro hq
    have hih := ih (fun j hja hjb => hq j hja (by omega))
    have hstep := bumpStep_quiet r L diss b (bumpStateAt r L burnin diss b)
      (fun hc => (hq b hab (by omega)).1 hc) (fun hc => (hq b hab (by omega)).2 hc)
    rw [bumpStateAt_succ r L burnin diss b (le_trans ha hab), hstep]
    exact hih

/-- Claim C3: in bump mode, on any dissimilarity sequence whose EWMA
trace makes exactly one upward band crossing, at `j1`, and exactly one
downward band crossing, at a later `j2`, and no other crossings after
burn-in, exactly one changepoint is emitted and its internal index is
`j1`, the upward crossing, not `j2`. -/
theorem c3_bump_single_excursion (r L : ℝ) (burnin D : ℕ) (diss : ℕ → ℝ) (j1 j2 : ℕ)
    (h1 : burnin ≤ j1) (h12 : j1 < j2) (h2D : j2 < D)
    (hup : ∀ j, burnin ≤ j → j < D → (upCrossB r L burnin diss j ↔ j = j1))
    (hdown : ∀ j, burnin ≤ j → j < D → (downCrossB r L burnin diss j ↔ j = j2)) :
    (detectBump r L burnin D diss).cps = [j1] := by
  have hinit : (bumpStateAt r L burnin diss burnin).lastPlus = false ∧
      (bumpStateAt r L burnin diss burnin).lastDet = none ∧
      (bumpStateAt r L burnin diss burnin).cps = [] := by
    unfold bumpStateAt
    rw [Nat.sub_self, runSteps_zero]
    exact burnB_components diss (burnin - 1) 1 bumpInit
  have hq1 := bump_quiet r L burnin diss burnin le_rfl j1 h1
    (fun j hj hjb =>
      ⟨fun hc => by have := (hup j hj (by omega)).mp hc; omega,
       fun hc => by have := (hdown j hj (by omega)).mp hc; omega⟩)
  have hAt1 : (bumpStateAt r L burnin diss j1).lastPlus = false ∧
      (bumpStateAt r L burnin diss j1).lastDet = none ∧
      (bumpStateAt r L burnin diss j1).cps = [] :=
    ⟨hq1.1.trans hinit.1, hq1.2.1.trans hinit.2.1, hq1.2.2.trans hinit.2.2⟩
  have hupj1 := (hup j1 h1 (by omega)).mpr rfl
  have hdownj1 : ¬ downCrossB r L burnin diss j1 :=
    fun hc => by have := (hdown j1 h1 (by omega)).mp hc; omega
  have hstep1 := bumpStep_arm r L diss j1 (bumpStateAt r L burnin diss j1) hupj1
    hAt1.2.1 hdownj1
  have hA2 : (bumpStateAt r L burnin diss (j1 + 1)).lastPlus = true ∧
      (bumpStateAt r L burnin diss (j1 + 1)).lastDet = some j1 ∧
      (bumpStateAt r L burnin diss (j1 + 1)).cps = [] := by
    rw [bumpStateAt_succ r L burnin diss j1 h1, hstep1]
    exact ⟨rfl, rfl, hAt1.2.2⟩
  have hq2 := bump_quiet r L burnin diss (j1 + 1) (by omega) j2 (by omega)
    (fun j hj hjb =>
      ⟨fun hc => by have := (hup j (by omega) (by omega)).mp hc; omega,
       fun hc => by have := (hdown j (by omega) (by omega)).mp hc; omega⟩)
  have hAt2 : (bumpStateAt r L burnin diss j2).lastPlus = true ∧
      (bumpStateAt r L burnin diss j2).lastDet = some j1 ∧
      (bumpStateAt r L burnin diss j2).cps = [] :=
    ⟨hq2.1.trans hA2.1, hq2.2.1.trans hA2.2.1, hq2.2.2.trans hA2.2.2⟩
  have hnup2 : ¬ upCrossB r L burnin diss j2 :=
    fun hc => by have := (hup j2 (by omega) h2D).mp hc; omega
  have hdn2 := (hdown j2 (by omega) h2D).mpr rfl
  have hstep2 := bumpStep_fire r L diss j2 (bumpStateAt r L burnin diss j2) hnup2 hdn2 hAt2.1
  have hA3 : (bumpStateAt r L burnin diss (j2 + 1)).lastPlus = false ∧
      (bumpStateAt r L burnin diss (j2 + 1)).lastDet = none ∧
      (bumpStateAt r L burnin diss (j2 + 1)).cps = [j1] := by
    rw [bumpStateAt_succ r L burnin diss j2 (by omega), hstep2]
    refine ⟨rfl, rfl, ?_⟩
    show (bumpStateAt r L burnin diss j2).cps ++
        [(bumpStateAt r L burnin diss j2).lastDet.getD 0] = [j1]
    rw [hAt2.2.2, hAt2.2.1]
    rfl
  have hq3 := bump_quiet r L burnin diss (j2 + 1) (by omega) D (by omega)
    (fun j hj hjb =>
      ⟨fun hc => by have := (hup j (by omega) (by omega)).mp hc; omega,
       fun hc => by have := (hdown j (by omega) (by omega)).mp hc; omega⟩)
  show (bumpStateAt r L burnin diss D).cps = [j1]
  rw [hq3.2.2, hA3.2.2]

/-- Claim C10: in bump mode a changepoint is recorded only at a downward
crossing following an upward one; if the sequence ends while the detector
is armed (one upward crossing at `j1` and no downward crossing at all),
the run ends with the pending detection still armed and the changepoint
set empty: the pending upward crossing is silently discarded. -/
theorem c10_armed_discard (r L : ℝ) (burnin D : ℕ) (diss : ℕ → ℝ) (j1 : ℕ)
    (h1 : burnin ≤ j1) (h1D : j1 < D)
    (hup : ∀ j, burnin ≤ j → j < D → (upCrossB r L burnin diss j ↔ j = j1))
    (hdown : ∀ j, burnin ≤ j → j < D → ¬ downCrossB r L burnin diss j) :
    (detectBump r L burnin D diss).cps = [] ∧
      (detectBump r L burnin D diss).lastDet = some j1 := by
  have hinit : (bumpStateAt r L burnin diss burnin).lastPlus = false ∧
      (bumpStateAt r L burnin diss burnin).lastDet = none ∧
      (bumpStateAt r L burnin diss burnin).cps = [] := by
    unfold bumpStateAt
    rw [Nat.sub_self, runSteps_zero]
    exact burnB_components diss (burnin - 1) 1 bumpInit
  have hq1 := bump_quiet r L burnin diss burnin le_rfl j1 h1
    (fun j hj hjb =>
      ⟨fun hc => by have := (hup j hj (by omega)).mp hc; omega,
       fun hc => hdown j hj (by omega) hc⟩)
  have hAt1 : (bumpStateAt r L burnin diss j1).lastPlus = false ∧
      (bumpStateAt r L burnin diss j1).lastDet = none ∧
      (bumpStateAt r L burnin diss j1).cps = [] :=
    ⟨hq1.1.trans hinit.1, hq1.2.1.trans hinit.2.1, hq1.2.2.trans hinit.2.2⟩
  have hupj1 := (hup j1 h1 h1D).mpr rfl
  have hstep1 := bumpStep_arm r L diss j1 (bumpStateAt r L burnin diss j1) hupj1
    hAt1.2.1 (hdown j1 h1 h1D)
  have hA2 : (bumpStateAt r L burnin diss (j1 + 1)).lastPlus = true ∧
      (bumpStateAt r L burnin diss (j1 + 1)).lastDet = some j1 ∧
      (bumpStateAt r L burnin diss (j1 + 1)).cps = [] := by
    rw [bumpStateAt_succ r L burnin diss j1 h1, hstep1]
    exact ⟨rfl, rfl, hAt1.2.2⟩
  have hq2 := bump_quiet r L burnin diss (j1 + 1) (by omega) D (by omega)
    (fun j hj hjb =>
      ⟨fun hc => by have := (hup j (by omega) (by omega)).mp hc; omega,
       fun hc => hdown j (by omega) (by omega) hc⟩)
  exact ⟨hq2.2.2.trans hA2.2.2, hq2.2.1.trans hA2.2.1⟩

theorem incStateAt_succ (r L : ℝ) (burnin timeout : ℕ) (diss : ℕ → ℝ) (j : ℕ)
    (hj : burnin ≤ j) :
    incStateAt r L burnin timeout diss (j + 1) =
      incStep r L timeout diss j (incStateAt r L burnin timeout diss j) := by
  unfold incStateAt
  rw [show j + 1 - burnin = (j - burnin) + 1 by omega, runSteps_succ,
    show burnin + (j - burnin) = j by omega]

theorem incStep_quiet (r L : ℝ) (timeout : ℕ) (diss : ℕ → ℝ) (j : ℕ) (s : IncState)
    (h1 : ¬ upCond r L diss j s.n s.mu s.sigma) :
    incStep r L timeout diss j s =
      ⟨s.n + 1, muUpdate s.n s.mu (diss j), sigmaUpdate s.n s.mu s.sigma (diss j),
        s.lastCp, s.cps⟩ := by
  unfold incStep
  rw [if_neg h1]

theorem incStep_report (r L : ℝ) (timeout : ℕ) (diss : ℕ → ℝ) (j : ℕ) (s : IncState)
    (h1 : upCond r L diss j s.n s.mu s.sigma) (h2 : timeout < j - s.lastCp) :
    incStep r L timeout diss j s =
      ⟨2, muUpdate s.n s.mu (diss j), sigmaUpdate s.n s.mu s.sigma (diss j),
        j, s.cps ++ [j]⟩ := by
  unfold incStep
  rw [if_pos h1, if_pos h2]

theorem incStep_skip (r L : ℝ) (timeout : ℕ) (diss : ℕ → ℝ) (j : ℕ) (s : IncState)
    (h1 : upCond r L diss j s.n s.mu s.sigma) (h2 : ¬ timeout < j - s.lastCp) :
    incStep r L timeout diss j s =
      ⟨2, muUpdate s.n s.mu (diss j), sigmaUpdate s.n s.mu s.sigma (diss j),
        s.lastCp, s.cps⟩ := by
  unfold incStep
  rw [if_pos h1, if_neg h2]

theorem inc_quiet (r L : ℝ) (burnin timeout : ℕ) (diss : ℕ → ℝ) (a : ℕ) (ha : burnin ≤ a) :
    ∀ b, a ≤ b →
      (∀ j, a ≤ j → j < b → ¬ upCrossI r L burnin timeout diss j) →
      (incStateAt r L burnin timeout diss b).lastCp =
          (incStateAt r L burnin timeout diss a).lastCp ∧
        (incStateAt r L burnin timeout diss b).cps =
          (incStateAt r L burnin timeout diss a).cps := by
  intro b hb
  induction b, hb using Nat.le_induction with
  | base => intro _; exact ⟨rfl, rfl⟩
  | succ b hab ih =>
    intro hq
    have hih := ih (fun j hja hjb => hq j hja (by omega))
    have hstep := incStep_quiet r L timeout diss b (incStateAt r L burnin timeout diss b)
      (fun hc => hq b hab (by omega) hc)
    rw [incStateAt_succ r L burnin timeout diss b (le_trans ha hab), hstep]
    exact hih

/-- Claim C4 (amended): in sustained-increase mode, on any trace with
exactly two upward band crossings `j1 < j2` after burn-in, and provided
the first crossing occurs more than `timeout` steps into the sequence
(`last_changepoint` starts at 0, so an initial crossing at index
`≤ timeout` is itself suppressed), the first crossing is reported, and
the second is reported exactly when the separation exceeds `timeout`. -/
theorem c4_timeout_amended (r L : ℝ) (burnin timeout D : ℕ) (diss : ℕ → ℝ) (j1 j2 : ℕ)
    (h1 : burnin ≤ j1) (h12 : j1 < j2) (h2D : j2 < D) (ht : timeout < j1)
    (hup : ∀ j, burnin ≤ j → j < D →
      (upCrossI r L burnin timeout diss j ↔ (j = j1 ∨ j = j2))) :
    (detectInc r L burnin timeout D diss).cps =
      if timeout < j2 - j1 then [j1, j2] else [j1] := by
  have hinit : (incStateAt r L burnin timeout diss burnin).lastCp = 0 ∧
      (incStateAt r L burnin timeout diss burnin).cps = [] := by
    unfold incStateAt
    rw [Nat.sub_self, runSteps_zero]
    exact burnI_components diss (burnin - 1) 1 incInit
  have hq1 := inc_quiet r L burnin timeout diss burnin le_rfl j1 h1
    (fun j hj hjb => fun hc => by have := (hup j hj (by omega)).mp hc; omega)
  have hAt1 : (incStateAt r L burnin timeout diss j1).lastCp = 0 ∧
      (incStateAt r L burnin timeout diss j1).cps = [] :=
    ⟨hq1.1.trans hinit.1, hq1.2.trans hinit.2⟩
  have hup1 := (hup j1 h1 (by omega)).mpr (Or.inl rfl)
  have htj1 : timeout < j1 - (incStateAt r L burnin timeout diss j1).lastCp := by
    rw [hAt1.1]
    omega
  have hstep1 := incStep_report r L timeout diss j1 (incStateAt r L burnin timeout diss j1)
    hup1 htj1
  have hA2 : (incStateAt r L burnin timeout diss (j1 + 1)).lastCp = j1 ∧
      (incStateAt r L burnin timeout diss (j1 + 1)).cps = [j1] := by
    rw [incStateAt_succ r L burnin timeout diss j1 h1, hstep1]
    refine ⟨rfl, ?_⟩
    show (incStateAt r L burnin timeout diss j1).cps ++ [j1] = [j1]
    rw [hAt1.2]
    rfl
  have hq2 := inc_quiet r L burnin timeout diss (j1 + 1) (by omega) j2 (by omega)
    (fun j hj hjb => fun hc => by have := (hup j (by omega) (by omega)).mp hc; omega)
  have hAt2 : (incStateAt r L burnin timeout diss j2).lastCp = j1 ∧
      (incStateAt r L burnin timeout diss j2).cps = [j1] :=
    ⟨hq2.1.trans hA2.1, hq2.2.trans hA2.2⟩
  have hup2 := (hup j2 (by omega) h2D).mpr (Or.inr rfl)
  have hq3fun : ∀ j, j2 + 1 ≤ j → j < D → ¬ upCrossI r L burnin timeout diss j :=
    fun j hj hjb => fun hc => by have := (hup j (by omega) (by omega)).mp hc; omega
  by_cases hcase : timeout < j2 - j1
  · have hstep2 := incStep_report r L timeout diss j2 (incStateAt r L burnin timeout diss j2)
      hup2 (by rw [hAt2.1]; exact hcase)
    have hA3 : (incStateAt r L burnin timeout diss (j2 + 1)).cps = [j1, j2] := by
      rw [incStateAt_succ r L burnin timeout diss j2 (by omega), hstep2]
      show (incStateAt r L burnin timeout diss j2).cps ++ [j2] = [j1, j2]
      rw [hAt2.2]
      rfl
    have hq3 := inc_quiet r L burnin timeout diss (j2 + 1) (by omega) D (by omega) hq3fun
    rw [if_pos hcase]
    show (incStateAt r L burnin timeout diss D).cps = [j1, j2]
    rw [hq3.2, hA3]
  · have hstep2 := incStep_skip r L timeout diss j2 (incStateAt r L burnin timeout diss j2)
      hup2 (by rw [hAt2.1]; exact hcase)
    have hA3 : (incStateAt r L burnin timeout diss (j2 + 1)).cps = [j1] := by
      rw [incStateAt_succ r L burnin timeout diss j2 (by omega), hstep2]
      show (incStateAt r L burnin timeout diss j2).cps = [j1]
      exact hAt2.2
    have hq3 := inc_quiet r L burnin timeout diss (j2 + 1) (by omega) D (by omega) hq3fun
    rw [if_neg hcase]
    show (incStateAt r L burnin timeout diss D).cps = [j1]
    rw [hq3.2, hA3]

theorem bumpStep_toInv (r L : ℝ) (diss : ℕ → ℝ) (j : ℕ) (s : BumpState) (h : BumpInv j s) :
    BumpInv (j + 1) (bumpStep r L diss j s) := by
  obtain ⟨hp, hb, hd, hpd⟩ := h
  by_cases hA : upCond r L diss j s.n s.mu s.sigma ∧ s.lastDet = none
  · have e : bumpArm r L diss j s =
        ⟨2, muUpdate s.n s.mu (diss j), sigmaUpdate s.n s.mu s.sigma (diss j),
          true, some j, s.cps⟩ := by
      unfold bumpArm
      rw [if_pos hA]
    show BumpInv (j + 1) (bumpFire r L diss j (bumpArm r L diss j s))
    rw [e]
    unfold bumpFire
    split_ifs with hF
    · show BumpInv (j + 1)
        ⟨2, muUpdate s.n s.mu (diss j), sigmaUpdate s.n s.mu s.sigma (diss j),
          false, none, s.cps ++ [j]⟩
      refine ⟨?_, ?_, ?_, ?_⟩
      · rw [List.pairwise_append]
        refine ⟨hp, List.pairwise_singleton _ _, fun x hx y hy => ?_⟩
        rw [List.mem_singleton] at hy
        subst hy
        exact hb x hx
      · intro c hc
        rcases List.mem_append.mp hc with hcl | hcr
        · have := hb c hcl
          omega
        · rw [List.mem_singleton] at hcr
          omega
      · intro a ha
        cases ha
      · intro hcon
        cases hcon
    · refine ⟨hp, fun c hc => by have := hb c hc; omega, ?_, ?_⟩
      · intro a ha
        have haj : a = j := by
          cases ha
          rfl
        subst haj
        exact ⟨hb, by omega⟩
      · intro _
        exact fun hc => by cases hc
  · have e : bumpArm r L diss j s =
        ⟨s.n + 1, muUpdate s.n s.mu (diss j), sigmaUpdate s.n s.mu s.sigma (diss j),
          s.lastPlus, s.lastDet, s.cps⟩ := by
      unfold bumpArm
      rw [if_neg hA]
    show BumpInv (j + 1) (bumpFire r L diss j (bumpArm r L diss j s))
    rw [e]
    unfold bumpFire
    split_ifs with hF
    · have hPl : s.lastPlus = true := hF.2
      have hne := hpd hPl
      obtain ⟨a, ha⟩ := Option.ne_none_iff_exists'.mp hne
      have hgd : s.lastDet.getD 0 = a := by
        rw [ha]
        rfl
      obtain ⟨hlt, haj⟩ := hd a ha
      refine ⟨?_, ?_, ?_, ?_⟩
      · show (s.cps ++ [s.lastDet.getD 0]).Pairwise (fun a b => a < b)
        rw [hgd, List.pairwise_append]
        refine ⟨hp, List.pairwise_singleton _ _, fun x hx y hy => ?_⟩
        rw [List.mem_singleton] at hy
        subst hy
        exact hlt x hx
      · intro c hc
        show c < j + 1
        rw [hgd] at hc
        rcases List.mem_append.mp hc with hcl | hcr
        · have := hb c hcl
          omega
        · rw [List.mem_singleton] at hcr
          omega
      · intro a2 ha2
        cases ha2
      · intro hcon
        cases hcon
    · exact ⟨hp, fun c hc => by have := hb c hc; omega,
        fun a ha => ⟨(hd a ha).1, by have := (hd a ha).2; omega⟩, hpd⟩

theorem detectBump_sorted (r L : ℝ) (burnin D : ℕ) (diss : ℕ → ℝ) :
    (detectBump r L burnin D diss).cps.Pairwise (fun a b => a < b) := by
  have hcomp := burnB_components diss (burnin - 1) 1 bumpInit
  have hbase : BumpInv burnin (runSteps (burnStepB diss) 1 (burnin - 1) bumpInit) := by
    refine ⟨?_, ?_, ?_, ?_⟩
    · rw [hcomp.2.2]
      exact List.Pairwise.nil
    · rw [hcomp.2.2]
      intro c hc
      cases hc
    · intro a ha
      rw [hcomp.2.1] at ha
      cases ha
    · intro hP
      rw [hcomp.1] at hP
      cases hP
  exact (runSteps_inv (bumpStep r L diss) BumpInv (bumpStep_toInv r L diss)
    (D - burnin) burnin _ hbase).1

theorem incStep_toInv (r L : ℝ) (timeout : ℕ) (diss : ℕ → ℝ) (j : ℕ) (s : IncState)
    (h : IncInv j s) : IncInv (j + 1) (incStep r L timeout diss j s) := by
  obtain ⟨hp, hb, hl⟩ := h
  unfold incStep
  split_ifs with h1 h2
  · refine ⟨?_, ?_, show j < j + 1 by omega⟩
    · show (s.cps ++ [j]).Pairwise (fun a b => a < b)
      rw [List.pairwise_append]
      refine ⟨hp, List.pairwise_singleton _ _, fun x hx y hy => ?_⟩
      rw [List.mem_singleton] at hy
      subst hy
      exact lt_of_le_of_lt (hb x hx) hl
    · show ∀ c ∈ s.cps ++ [j], c ≤ j
      intro c hc
      rcases List.mem_append.mp hc with hcl | hcr
      · exact le_of_lt (lt_of_le_of_lt (hb c hcl) hl)
      · rw [List.mem_singleton] at hcr
        omega
  · exact ⟨hp, hb, show s.lastCp < j + 1 by omega⟩
  · exact ⟨hp, hb, show s.lastCp < j + 1 by omega⟩

theorem detectInc_sorted (r L : ℝ) (burnin timeout D : ℕ) (diss : ℕ → ℝ) (hb : 1 ≤ burnin) :
    (detectInc r L burnin timeout D diss).cps.Pairwise (fun a b => a < b) := by
  have hcomp := burnI_components diss (burnin - 1) 1 incInit
  have hbase : IncInv burnin (runSteps (burnStepI diss) 1 (burnin - 1) incInit) := by
    refine ⟨?_, ?_, ?_⟩
    · rw [hcomp.2]
      exact List.Pairwise.nil
    · rw [hcomp.2]
      intro c hc
      cases hc
    · rw [hcomp.1]
      exact hb
  exact (runSteps_inv (incStep r L timeout diss) IncInv (incStep_toInv r L timeout diss)
    (D - burnin) burnin _ hbase).1

/-- Claim C8: whenever a `process` run completes (hypotheses: valid
windowing parameters `k, n ≥ 1` and `burnin ≥ 1`, and the run returns a
result), every reported changepoint equals an internal detection index
plus `len(stream) - len(dissimilarity)`, and the reported indices are
strictly increasing. -/
theorem c8_translation_monotone {α C : Type} (method : String) (k n l : ℕ) (r L : ℝ)
    (burnin timeout : ℕ) (score : C → List (List α) → ℝ)
    (update : C → List (List α) → List (List α) → C) (c0 : C) (data : List α)
    (out : List ℕ) (_hk : 1 ≤ k) (_hn : 1 ≤ n) (hb : 1 ≤ burnin)
    (hrun : processE method k n l r L burnin timeout score update c0 data = some out) :
    (∀ c ∈ out, ∃ ci ∈ internalCps method k n l r L burnin timeout score update c0 data,
        c = ci + (data.length - dissLen data.length k n l)) ∧
      out.Pairwise (fun a b => a < b) := by
  have hout : out = processCps method k n l r L burnin timeout score update c0 data := by
    unfold processE at hrun
    by_cases hcond : 2 ≤ burnin ∧ dissLen data.length k n l < burnin
    · rw [if_pos hcond] at hrun
      cases hrun
    · rw [if_neg hcond] at hrun
      exact (Option.some_injective _ hrun).symm
  have hsort : (internalCps method k n l r L burnin timeout score update
      c0 data).Pairwise (fun a b => a < b) := by
    unfold internalCps
    split_ifs
    · exact detectBump_sorted r L burnin _ _
    · exact detectInc_sorted r L burnin timeout _ _ hb
    · exact List.Pairwise.nil
  constructor
  · intro c hc
    rw [hout] at hc
    unfold processCps at hc
    obtain ⟨ci, hci, hce⟩ := List.mem_map.mp hc
    exact ⟨ci, hci, hce.symm⟩
  · rw [hout]
    unfold processCps
    refine List.Pairwise.map _ ?_ hsort
    intro a b hab
    omega

theorem c8_translation_monotone_witness :
    ((1 : ℕ) ≤ 10 ∧ (1 : ℕ) ≤ 5 ∧ (1 : ℕ) ≤ 1 ∧
      processE ("bump") 10 5 100 1 1 1 0 (fun (_ : Unit) (_ : List (List ℕ)) => 1 / 2)
        (fun c _ _ => c) () [0] = some []) ∧
      ((∀ c ∈ ([] : List ℕ), ∃ ci ∈ internalCps ("bump") 10 5 100 1 1 1 0
            (fun (_ : Unit) (_ : List (List ℕ)) => 1 / 2) (fun c2 _ _ => c2) () [0],
          c = ci + (([0] : List ℕ).length - dissLen ([0] : List ℕ).length 10 5 100)) ∧
        ([] : List ℕ).Pairwise (fun a b => a < b)) := by
  have hrun : processE ("bump") 10 5 100 1 1 1 0 (fun (_ : Unit) (_ : List (List ℕ)) => 1 / 2)
      (fun c _ _ => c) () [0] = some [] := rfl
  exact ⟨⟨by norm_num, by norm_num, le_rfl, hrun⟩,
    c8_translation_monotone ("bump") 10 5 100 1 1 1 0
      (fun (_ : Unit) (_ : List (List ℕ)) => 1 / 2) (fun c _ _ => c) () [0] []
      (by norm_num) (by norm_num) le_rfl hrun⟩

theorem zoneW (diss : ℕ → ℝ) (j : ℕ) (hj : j ≠ 0) : Zseq 1 diss j = diss j := by
  cases j with
  | zero => exact absurd rfl hj
  | succ j =>
    rw [Zseq_succ]
    ring

theorem faconeW (j : ℕ) (hj : j ≠ 0) : sigmaZfac 1 j = 1 := by
  unfold sigmaZfac
  rw [show (1 : ℝ) - 1 = 0 by norm_num, zero_pow (show 2 * j ≠ 0 by omega)]
  norm_num [Real.sqrt_one]

theorem muW_a : muUpdate 2 0 1 = 1 / 2 := by
  unfold muUpdate
  push_cast
  norm_num

theorem sgW_a : sigmaUpdate 2 0 1 1 = Real.sqrt (1 / 2) := by
  unfold sigmaUpdate
  rw [muW_a]
  push_cast
  congr 1
  norm_num

theorem muW_b : muUpdate 2 (1 / 2) (-1) = -(1 / 4) := by
  unfold muUpdate
  push_cast
  norm_num

theorem sgW_b : sigmaUpdate 2 (1 / 2) (Real.sqrt (1 / 2)) (-1) = Real.sqrt (9 / 8) := by
  unfold sigmaUpdate
  rw [muW_b]
  push_cast
  congr 1
  ring_nf

theorem muW_c : muUpdate 2 (1 / 2) 2 = 5 / 4 := by
  unfold muUpdate
  push_cast
  norm_num

theorem sgW_c : sigmaUpdate 2 (1 / 2) (Real.sqrt (1 / 2)) 2 = Real.sqrt (9 / 8) := by
  unfold sigmaUpdate
  rw [muW_c]
  push_cast
  congr 1
  ring_nf

theorem sqrtHalfLeOne : Real.sqrt (1 / 2) ≤ 1 :=
  Real.sqrt_le_one.mpr (by norm_num)

theorem sqrtNineEighthsLt : Real.sqrt (9 / 8) < 15 / 2 :=
  (Real.sqrt_lt' (by norm_num)).mpr (by norm_num)

theorem upOneW (diss : ℕ → ℝ) (h : diss 1 = 1) : upCond 1 (1 / 10) diss 1 2 0 1 := by
  unfold upCond
  rw [zoneW diss 1 one_ne_zero, h, muW_a, sgW_a, faconeW 1 one_ne_zero]
  have h1 := sqrtHalfLeOne
  have h2 := Real.sqrt_nonneg (1 / 2 : ℝ)
  nlinarith

theorem notDownOneW (diss : ℕ → ℝ) (h : diss 1 = 1) : ¬ downCond 1 (1 / 10) diss 1 2 0 1 := by
  unfold downCond
  rw [zoneW diss 1 one_ne_zero, h, muW_a, sgW_a, faconeW 1 one_ne_zero]
  intro hc
  have h2 := Real.sqrt_nonneg (1 / 2 : ℝ)
  nlinarith

theorem w3val1 : dissW3 1 = 1 := by norm_num [dissW3]

theorem w3val2 : dissW3 2 = -1 := by norm_num [dissW3]

theorem w4val1 : dissW4 1 = 1 := by norm_num [dissW4]

theorem w4val2 : dissW4 2 = 2 := by norm_num [dissW4]

theorem notUpTwoW3 : ¬ upCond 1 (1 / 10) dissW3 2 2 (1 / 2) (Real.sqrt (1 / 2)) := by
  unfold upCond
  rw [zoneW dissW3 2 (by norm_num), w3val2, muW_b, sgW_b, faconeW 2 (by norm_num)]
  intro hc
  have h2 := Real.sqrt_nonneg (9 / 8 : ℝ)
  nlinarith

theorem downTwoW3 : downCond 1 (1 / 10) dissW3 2 2 (1 / 2) (Real.sqrt (1 / 2)) := by
  unfold downCond
  rw [zoneW dissW3 2 (by norm_num), w3val2, muW_b, sgW_b, faconeW 2 (by norm_num)]
  have h2 := sqrtNineEighthsLt
  have h3 := Real.sqrt_nonneg (9 / 8 : ℝ)
  nlinarith

theorem upTwoW4 : upCond 1 (1 / 10) dissW4 2 2 (1 / 2) (Real.sqrt (1 / 2)) := by
  unfold upCond
  rw [zoneW dissW4 2 (by norm_num), w4val2, muW_c, sgW_c, faconeW 2 (by norm_num)]
  have h2 := sqrtNineEighthsLt
  have h3 := Real.sqrt_nonneg (9 / 8 : ℝ)
  nlinarith

theorem bumpStepOneW3 :
    bumpStep 1 (1 / 10) dissW3 1 bumpInit = ⟨2, 1 / 2, Real.sqrt (1 / 2), true, some 1, []⟩ := by
  have harm := bumpStep_arm 1 (1 / 10) dissW3 1 bumpInit (upOneW dissW3 w3val1) rfl
    (notDownOneW dissW3 w3val1)
  rw [harm]
  show (⟨2, muUpdate 2 0 (dissW3 1), sigmaUpdate 2 0 1 (dissW3 1), true, some 1, []⟩ : BumpState) = _
  rw [w3val1, muW_a, sgW_a]

theorem bumpAtTwoW3 :
    bumpStateAt 1 (1 / 10) 1 dissW3 2 = ⟨2, 1 / 2, Real.sqrt (1 / 2), true, some 1, []⟩ := by
  rw [bumpStateAt_succ 1 (1 / 10) 1 dissW3 1 le_rfl,
    show bumpStateAt 1 (1 / 10) 1 dissW3 1 = bumpInit from rfl, bumpStepOneW3]

theorem bumpW3_up (j : ℕ) (h1 : 1 ≤ j) (h3 : j < 3) :
    upCrossB 1 (1 / 10) 1 dissW3 j ↔ j = 1 := by
  have hj : j = 1 ∨ j = 2 := by omega
  rcases hj with hj | hj <;> subst hj
  · refine iff_of_true ?_ rfl
    show upCond 1 (1 / 10) dissW3 1 (bumpStateAt 1 (1 / 10) 1 dissW3 1).n
      (bumpStateAt 1 (1 / 10) 1 dissW3 1).mu (bumpStateAt 1 (1 / 10) 1 dissW3 1).sigma
    rw [show bumpStateAt 1 (1 / 10) 1 dissW3 1 = bumpInit from rfl]
    exact upOneW dissW3 w3val1
  · refine iff_of_false ?_ (by norm_num)
    intro hc
    have hcc : upCond 1 (1 / 10) dissW3 2 (bumpStateAt 1 (1 / 10) 1 dissW3 2).n
        (bumpStateAt 1 (1 / 10) 1 dissW3 2).mu (bumpStateAt 1 (1 / 10) 1 dissW3 2).sigma := hc
    rw [bumpAtTwoW3] at hcc
    exact notUpTwoW3 hcc

theorem bumpW3_down (j : ℕ) (h1 : 1 ≤ j) (h3 : j < 3) :
    downCrossB 1 (1 / 10) 1 dissW3 j ↔ j = 2 := by
  have hj : j = 1 ∨ j = 2 := by omega
  rcases hj with hj | hj <;> subst hj
  · refine iff_of_false ?_ (by norm_num)
    intro hc
    have hcc : downCond 1 (1 / 10) dissW3 1 (bumpStateAt 1 (1 / 10) 1 dissW3 1).n
        (bumpStateAt 1 (1 / 10) 1 dissW3 1).mu (bumpStateAt 1 (1 / 10) 1 dissW3 1).sigma := hc
    rw [show bumpStateAt 1 (1 / 10) 1 dissW3 1 = bumpInit from rfl] at hcc
    exact notDownOneW dissW3 w3val1 hcc
  · refine iff_of_true ?_ rfl
    show downCond 1 (1 / 10) dissW3 2 (bumpStateAt 1 (1 / 10) 1 dissW3 2).n
      (bumpStateAt 1 (1 / 10) 1 dissW3 2).mu (bumpStateAt 1 (1 / 10) 1 dissW3 2).sigma
    rw [bumpAtTwoW3]
    exact downTwoW3

theorem c3_bump_single_excursion_witness :
    ((1 : ℕ) ≤ 1 ∧ 1 < 2 ∧ 2 < 3) ∧
      (∀ j, 1 ≤ j → j < 3 → (upCrossB 1 (1 / 10) 1 dissW3 j ↔ j = 1)) ∧
      (∀ j, 1 ≤ j → j < 3 → (downCrossB 1 (1 / 10) 1 dissW3 j ↔ j = 2)) ∧
      (detectBump 1 (1 / 10) 1 3 dissW3).cps = [1] := by
  have hup : ∀ j, 1 ≤ j → j < 3 → (upCrossB 1 (1 / 10) 1 dissW3 j ↔ j = 1) :=
    fun j hj h3 => bumpW3_up j hj h3
  have hdown : ∀ j, 1 ≤ j → j < 3 → (downCrossB 1 (1 / 10) 1 dissW3 j ↔ j = 2) :=
    fun j hj h3 => bumpW3_down j hj h3
  exact ⟨⟨le_rfl, by omega, by omega⟩, hup, hdown,
    c3_bump_single_excursion 1 (1 / 10) 1 3 dissW3 1 2 le_rfl (by omega) (by omega) hup hdown⟩

theorem c10_armed_discard_witness :
    ((1 : ℕ) ≤ 1 ∧ 1 < 2) ∧
      (∀ j, 1 ≤ j → j < 2 → (upCrossB 1 (1 / 10) 1 dissW3 j ↔ j = 1)) ∧
      (∀ j, 1 ≤ j → j < 2 → ¬ downCrossB 1 (1 / 10) 1 dissW3 j) ∧
      (detectBump 1 (1 / 10) 1 2 dissW3).cps = [] ∧
      (detectBump 1 (1 / 10) 1 2 dissW3).lastDet = some 1 := by
  have hup : ∀ j, 1 ≤ j → j < 2 → (upCrossB 1 (1 / 10) 1 dissW3 j ↔ j = 1) :=
    fun j hj h2 => bumpW3_up j hj (by omega)
  have hdown : ∀ j, 1 ≤ j → j < 2 → ¬ downCrossB 1 (1 / 10) 1 dissW3 j :=
    fun j hj h2 hc => by
      have := (bumpW3_down j hj (by omega)).mp hc
      omega
  have hres := c10_armed_discard 1 (1 / 10) 1 2 dissW3 1 le_rfl (by omega) hup hdown
  exact ⟨⟨le_rfl, by omega⟩, hup, hdown, hres.1, hres.2⟩

theorem incStepOneW4 :
    incStep 1 (1 / 10) 0 dissW4 1 incInit = ⟨2, 1 / 2, Real.sqrt (1 / 2), 1, [1]⟩ := by
  have h := incStep_report 1 (1 / 10) 0 dissW4 1 incInit (upOneW dissW4 w4val1)
    (by show (0 : ℕ) < 1 - 0; decide)
  rw [h]
  show (⟨2, muUpdate 2 0 (dissW4 1), sigmaUpdate 2 0 1 (dissW4 1), 1, [] ++ [1]⟩ : IncState) = _
  rw [w4val1, muW_a, sgW_a]
  rfl

theorem incAtTwoW4 :
    incStateAt 1 (1 / 10) 1 0 dissW4 2 = ⟨2, 1 / 2, Real.sqrt (1 / 2), 1, [1]⟩ := by
  rw [incStateAt_succ 1 (1 / 10) 1 0 dissW4 1 le_rfl,
    show incStateAt 1 (1 / 10) 1 0 dissW4 1 = incInit from rfl, incStepOneW4]

theorem incW4_up (j : ℕ) (h1 : 1 ≤ j) (h3 : j < 3) :
    upCrossI 1 (1 / 10) 1 0 dissW4 j ↔ (j = 1 ∨ j = 2) := by
  have hj : j = 1 ∨ j = 2 := by omega
  rcases hj with hj | hj <;> subst hj
  · refine iff_of_true ?_ (Or.inl rfl)
    show upCond 1 (1 / 10) dissW4 1 (incStateAt 1 (1 / 10) 1 0 dissW4 1).n
      (incStateAt 1 (1 / 10) 1 0 dissW4 1).mu (incStateAt 1 (1 / 10) 1 0 dissW4 1).sigma
    rw [show incStateAt 1 (1 / 10) 1 0 dissW4 1 = incInit from rfl]
    exact upOneW dissW4 w4val1
  · refine iff_of_true ?_ (Or.inr rfl)
    show upCond 1 (1 / 10) dissW4 2 (incStateAt 1 (1 / 10) 1 0 dissW4 2).n
      (incStateAt 1 (1 / 10) 1 0 dissW4 2).mu (incStateAt 1 (1 / 10) 1 0 dissW4 2).sigma
    rw [incAtTwoW4]
    exact upTwoW4

theorem c4_timeout_amended_witness :
    ((1 : ℕ) ≤ 1 ∧ 1 < 2 ∧ 2 < 3 ∧ (0 : ℕ) < 1) ∧
      (∀ j, 1 ≤ j → j < 3 → (upCrossI 1 (1 / 10) 1 0 dissW4 j ↔ (j = 1 ∨ j = 2))) ∧
      (detectInc 1 (1 / 10) 1 0 3 dissW4).cps = if (0 : ℕ) < 2 - 1 then [1, 2] else [1] := by
  have hup : ∀ j, 1 ≤ j → j < 3 → (upCrossI 1 (1 / 10) 1 0 dissW4 j ↔ (j = 1 ∨ j = 2)) :=
    fun j hj h3 => incW4_up j hj h3
  exact ⟨⟨le_rfl, by omega, by omega, by omega⟩, hup,
    c4_timeout_amended 1 (1 / 10) 1 0 3 dissW4 1 2 le_rfl (by omega) (by omega) (by omega) hup⟩

theorem incStepOneW4skip :
    incStep 1 (1 / 10) 5 dissW4 1 incInit = ⟨2, 1 / 2, Real.sqrt (1 / 2), 0, []⟩ := by
  have h := incStep_skip 1 (1 / 10) 5 dissW4 1 incInit (upOneW dissW4 w4val1)
    (by show ¬ (5 : ℕ) < 1 - 0; decide)
  rw [h]
  show (⟨2, muUpdate 2 0 (dissW4 1), sigmaUpdate 2 0 1 (dissW4 1), 0, []⟩ : IncState) = _
  rw [w4val1, muW_a, sgW_a]

theorem incAtTwoW4skip :
    incStateAt 1 (1 / 10) 1 5 dissW4 2 = ⟨2, 1 / 2, Real.sqrt (1 / 2), 0, []⟩ := by
  rw [incStateAt_succ 1 (1 / 10) 1 5 dissW4 1 le_rfl,
    show incStateAt 1 (1 / 10) 1 5 dissW4 1 = incInit from rfl, incStepOneW4skip]

theorem incAtThreeW4skip : (incStateAt 1 (1 / 10) 1 5 dissW4 3).cps = [] := by
  rw [incStateAt_succ 1 (1 / 10) 1 5 dissW4 2 (by omega), incAtTwoW4skip,
    incStep_skip 1 (1 / 10) 5 dissW4 2 (⟨2, 1 / 2, Real.sqrt (1 / 2), 0, []⟩ : IncState)
      upTwoW4 (by show ¬ (5 : ℕ) < 2 - 0; decide)]

/-- Claim C4 (counterexample): with timeout 5, this trace makes exactly
two upward band crossings, at indices 1 and 2, separated by one step,
fewer than the timeout; yet it is not the case that only the first is
reported: nothing is reported at all, because `last_cp` starts at 0 and
the initial-window test `j - last_cp > timeout` also suppresses the first
crossing. -/
theorem c4_timeout_counterexample :
    (∀ j, 1 ≤ j → j < 3 → (upCrossI 1 (1 / 10) 1 5 dissW4 j ↔ (j = 1 ∨ j = 2))) ∧
      (2 : ℕ) - 1 < 5 ∧
      (detectInc 1 (1 / 10) 1 5 3 dissW4).cps = [] ∧
      (detectInc 1 (1 / 10) 1 5 3 dissW4).cps ≠ [1] := by
  have hup : ∀ j, 1 ≤ j → j < 3 → (upCrossI 1 (1 / 10) 1 5 dissW4 j ↔ (j = 1 ∨ j = 2)) := by
    intro j h1 h3
    have hj : j = 1 ∨ j = 2 := by omega
    rcases hj with hj | hj <;> subst hj
    · refine iff_of_true ?_ (Or.inl rfl)
      show upCond 1 (1 / 10) dissW4 1 (incStateAt 1 (1 / 10) 1 5 dissW4 1).n
        (incStateAt 1 (1 / 10) 1 5 dissW4 1).mu (incStateAt 1 (1 / 10) 1 5 dissW4 1).sigma
      rw [show incStateAt 1 (1 / 10) 1 5 dissW4 1 = incInit from rfl]
      exact upOneW dissW4 w4val1
    · refine iff_of_true ?_ (Or.inr rfl)
      show upCond 1 (1 / 10) dissW4 2 (incStateAt 1 (1 / 10) 1 5 dissW4 2).n
        (incStateAt 1 (1 / 10) 1 5 dissW4 2).mu (incStateAt 1 (1 / 10) 1 5 dissW4 2).sigma
      rw [incAtTwoW4skip]
      exact upTwoW4
  have hcps : (detectInc 1 (1 / 10) 1 5 3 dissW4).cps = [] := incAtThreeW4skip
  refine ⟨hup, by omega, hcps, ?_⟩
  rw [hcps]
  simp

end Ocpdet
